import Mathlib

/-!
# Voker-Server: Buffer, Channel interest mask and Socket::accept

A shallow embedding of `src/Buffer.h`, of the interest-mask operations of
`src/Channel.h` and of `Socket::accept` from `src/Socket.cc`, followed by the
properties proved about them.

Conventions of the embedding.

* `size_t` values are natural numbers; every `size_t` addition and subtraction
  of the source is written with `sizeAdd` / `sizeSub`, which reduce modulo
  `2^64`.
* A `char` is a `Fin 256`.  A `std::vector<char>` is a `Vec`: the allocated
  block (a `List Byte` whose length is `capacity()`) together with `size()`.
  Shrinking the vector moves its end and leaves the bytes in the block;
  growing it past `max_size()` throws `std::length_error`.
* A pointer into the vector is the offset from `begin()`.  An access through a
  pointer outside the allocated block is undefined; the functions that touch
  memory return `none` in that case.
* Exhaustion of memory (`std::bad_alloc`) belongs to the environment and is not
  part of the model.
-/

namespace Voker

/-! ## size_t arithmetic -/

/-- The number of values of the 64-bit unsigned type `size_t`. -/
def SIZE_T_MOD : Nat := 2 ^ 64

/-- Addition of two `size_t` values (wraps modulo `2^64`). -/
def sizeAdd (a b : Nat) : Nat := (a + b) % SIZE_T_MOD

/-- Subtraction of two `size_t` values (wraps modulo `2^64`). -/
def sizeSub (a b : Nat) : Nat := (a + SIZE_T_MOD - b) % SIZE_T_MOD

/-! ## Memory primitives -/

/-- A `char` of the backing storage. -/
abbrev Byte : Type := Fin 256

/-- The constructor `std::string(const char *s, size_t n)` applied to the
pointer `begin() + off`: the `n` bytes starting at offset `off` of the block
`mem`.  Reading outside the block is undefined (`none`). -/
def stringAt (mem : List Byte) (off n : Nat) : Option (List Byte) :=
  if off + n ≤ mem.length then some ((mem.drop off).take n) else none

/-- The loop of `std::copy(first, last, d_first)` when source and destination
both lie in the same block: `count` iterations of `*d_first++ = *first++`,
with `first` and `dst` the offsets of the two pointers. -/
def copyLoop (mem : List Byte) (first dst : Nat) : Nat → Option (List Byte)
  | 0 => some mem
  | count + 1 =>
    match mem[first]? with
    | none => none
    | some c =>
      if dst < mem.length then copyLoop (mem.set dst c) (first + 1) (dst + 1) count
      else none

/-- The call `std::copy(begin() + first, begin() + last, begin() + dst)`.  A
range with `last < first` is not a valid range (`none`). -/
def copyWithin (mem : List Byte) (first last dst : Nat) : Option (List Byte) :=
  if first ≤ last then copyLoop mem first dst (last - first) else none

/-- The call `std::copy(data, data + len, begin() + dst)` for an external source
range holding the bytes `data`: each byte is stored in turn at `dst`,
`dst + 1`, ... -/
def copyIn : List Byte → List Byte → Nat → Option (List Byte)
  | [], mem, _ => some mem
  | c :: rest, mem, dst =>
    if dst < mem.length then copyIn rest (mem.set dst c) (dst + 1) else none

/-! ## std::vector<char> -/

/-- The value of `std::vector<char>::max_size()`, which is `PTRDIFF_MAX`. -/
def MAX_SIZE : Nat := 2 ^ 63 - 1

/-- A `std::vector<char>`: the allocated block `data`, whose length is
`capacity()`, and `size`, the value of `size()`.  The elements are the first
`size` bytes of the block. -/
structure Vec where
  data : List Byte
  size : Nat
  deriving DecidableEq

namespace Vec

/-- The constructor `std::vector<char>(n)`: a block of `n` zero bytes, all of
them elements.  It throws `std::length_error` (`none`) above `max_size()`. -/
def make (n : Nat) : Option Vec :=
  if MAX_SIZE < n then none else some ⟨List.replicate n 0, n⟩

/-- The capacity a reallocating `resize` asks for (libstdc++ `_M_check_len`):
the size plus the larger of the size and the number of added elements, at
most `max_size()`. -/
def grownCapacity (size n : Nat) : Nat :=
  min (size + max size (n - size)) MAX_SIZE

/-- The call `resize(n)`.
* `n <= size()`: the end is moved down; the block and its bytes stay.
* `size() < n <= capacity()`: the new elements are zeroed in place.
* otherwise, above `max_size()` it throws `std::length_error` (`none`) and
  changes nothing;
* else a block of `grownCapacity` bytes is allocated, the elements are moved
  into it and the new elements are zeroed.  The bytes of a fresh block past
  the new end are indeterminate; the model puts zeros there. -/
def resize (v : Vec) (n : Nat) : Option Vec :=
  if n ≤ v.size then some { v with size := n }
  else if n ≤ v.data.length then
    some ⟨v.data.take v.size ++ List.replicate (n - v.size) 0 ++ v.data.drop n, n⟩
  else if MAX_SIZE < n then none
  else some ⟨v.data.take v.size ++ List.replicate (grownCapacity v.size n - v.size) 0, n⟩

end Vec

/-! ## Buffer (src/Buffer.h) -/

/-- The constant `Buffer::kCheapPrepend`. -/
def kCheapPrepend : Nat := 8

/-- The constant `Buffer::kInitialSize`. -/
def kInitialSize : Nat := 1024

/-- The data members of `class Buffer`. -/
structure Buffer where
  buffer_ : Vec
  readerIndex_ : Nat
  writerIndex_ : Nat
  deriving DecidableEq

/-- How a call of a member that may reallocate ends: it returns, leaving the
buffer `b`; or `std::length_error` leaves the call, the buffer being `b` at
that point; or it touches memory outside the allocated block. -/
inductive Outcome where
  | returned (b : Buffer)
  | lengthError (b : Buffer)
  | undefined
  deriving DecidableEq

/-- The buffer after the call, whether it returned or threw. -/
def Outcome.buffer : Outcome → Option Buffer
  | .returned b => some b
  | .lengthError b => some b
  | .undefined => none

namespace Buffer

/-- The constructor `Buffer(size_t initalSize)`; `none` when the constructor of
the vector throws. -/
def new (initalSize : Nat) : Option Buffer :=
  match Vec.make (sizeAdd kCheapPrepend initalSize) with
  | none => none
  | some v => some ⟨v, kCheapPrepend, kCheapPrepend⟩

/-- The member `readableBytes()`. -/
def readableBytes (b : Buffer) : Nat := sizeSub b.writerIndex_ b.readerIndex_

/-- The member `writableBytes()`. -/
def writableBytes (b : Buffer) : Nat := sizeSub b.buffer_.size b.writerIndex_

/-- The member `prependableBytes()`. -/
def prependableBytes (b : Buffer) : Nat := b.readerIndex_

/-- The member `peek()`, as an offset from `begin()`. -/
def peek (b : Buffer) : Nat := b.readerIndex_

/-- The member `beginWrite()`, as an offset from `begin()`. -/
def beginWrite (b : Buffer) : Nat := b.writerIndex_

/-- The member `retrieveAll()`. -/
def retrieveAll (b : Buffer) : Buffer :=
  { b with readerIndex_ := kCheapPrepend, writerIndex_ := kCheapPrepend }

/-- The member `retrieve(len)`. -/
def retrieve (b : Buffer) (len : Nat) : Buffer :=
  if len < b.readableBytes then
    { b with readerIndex_ := sizeAdd b.readerIndex_ len }
  else
    b.retrieveAll

/-- The member `retrieveAsString(len)`: the returned string and the buffer
afterwards. -/
def retrieveAsString (b : Buffer) (len : Nat) : Option (List Byte × Buffer) :=
  match stringAt b.buffer_.data b.peek len with
  | none => none
  | some result => some (result, b.retrieve len)

/-- The private member `makeSpace(len)`. -/
def makeSpace (b : Buffer) (len : Nat) : Outcome :=
  if sizeAdd b.writableBytes b.prependableBytes < sizeAdd len kCheapPrepend then
    match b.buffer_.resize (sizeAdd b.writerIndex_ len) with
    | none => .lengthError b
    | some v => .returned { b with buffer_ := v }
  else
    let readable := b.readableBytes
    match copyWithin b.buffer_.data b.readerIndex_ b.writerIndex_ kCheapPrepend with
    | none => .undefined
    | some mem =>
      .returned { buffer_ := { b.buffer_ with data := mem }
                  readerIndex_ := kCheapPrepend
                  writerIndex_ := sizeAdd kCheapPrepend readable }

/-- The member `ensureWritableBytes(len)`. -/
def ensureWritableBytes (b : Buffer) (len : Nat) : Outcome :=
  if b.writableBytes < len then b.makeSpace len else .returned b

/-- The member `append(data, len)`, the source range holding the bytes `data`
(so `len = data.length`). -/
def append (b : Buffer) (data : List Byte) : Outcome :=
  match b.ensureWritableBytes data.length with
  | .returned b1 =>
    match copyIn data b1.buffer_.data b1.beginWrite with
    | none => .undefined
    | some mem =>
      .returned { b1 with buffer_ := { b1.buffer_ with data := mem }
                          writerIndex_ := sizeAdd b1.writerIndex_ data.length }
  | .lengthError b1 => .lengthError b1
  | .undefined => .undefined

/-- The readable content `peek()[0 .. readableBytes())`. -/
def readable (b : Buffer) : Option (List Byte) :=
  stringAt b.buffer_.data b.peek b.readableBytes

/-- The index invariant drawn at the top of `Buffer.h`, with the reserve:
`kCheapPrepend <= readerIndex <= writerIndex <= size`. -/
def IndexInv (b : Buffer) : Prop :=
  kCheapPrepend ≤ b.readerIndex_ ∧ b.readerIndex_ ≤ b.writerIndex_ ∧
    b.writerIndex_ ≤ b.buffer_.size

/-- The vector is a vector: its elements lie in its block
(`size() <= capacity()`) and `size()` is a `size_t`. -/
def SizeFits (b : Buffer) : Prop :=
  b.buffer_.size ≤ b.buffer_.data.length ∧ b.buffer_.size < SIZE_T_MOD

instance (b : Buffer) : Decidable b.IndexInv := by
  unfold IndexInv; infer_instance

instance (b : Buffer) : Decidable b.SizeFits := by
  unfold SizeFits; infer_instance

end Buffer

/-! ## Concrete buffers used as inputs -/

namespace Buffer

/-- The state built by `Buffer()`. -/
def default : Buffer := ⟨⟨List.replicate 1032 0, 1032⟩, 8, 8⟩

/-- The state built by `Buffer(16)`. -/
def sixteen : Buffer := ⟨⟨List.replicate 24 0, 24⟩, 8, 8⟩

/-- The ten bytes 1, 2, ..., 10. -/
def tenBytes : List Byte := [1, 2, 3, 4, 5, 6, 7, 8, 9, 10]

/-- The state of `Buffer(16)` after `append` of `tenBytes`. -/
def sampleTen : Buffer :=
  ⟨⟨List.replicate 8 0 ++ tenBytes ++ List.replicate 6 0, 24⟩, 8, 18⟩

/-- The state of `sampleTen` after `retrieve(4)`. -/
def sampleSix : Buffer :=
  ⟨⟨List.replicate 8 0 ++ tenBytes ++ List.replicate 6 0, 24⟩, 12, 18⟩

end Buffer

/-! ## Sequences of Buffer operations -/

/-- One call of a public member of `Buffer` that changes the buffer. -/
inductive Op where
  | append (data : List Byte)
  | retrieve (n : Nat)
  | retrieveAll
  | retrieveAsString (n : Nat)
  | ensureWritableBytes (n : Nat)
  deriving DecidableEq

namespace Buffer

/-- The outcome of one call. -/
def step (b : Buffer) : Op → Outcome
  | .append data => b.append data
  | .retrieve n => .returned (b.retrieve n)
  | .retrieveAll => .returned b.retrieveAll
  | .retrieveAsString n =>
    match b.retrieveAsString n with
    | none => .undefined
    | some (_, b') => .returned b'
  | .ensureWritableBytes n => b.ensureWritableBytes n

/-- The outcome of a sequence of calls; it stops at the first call that does
not return. -/
def run (b : Buffer) : List Op → Outcome
  | [] => .returned b
  | op :: ops =>
    match b.step op with
    | .returned b' => b'.run ops
    | .lengthError b' => .lengthError b'
    | .undefined => .undefined

/-- The call asks for a length that the vector can reach (the write index plus
the length is at most `max_size()`), and a `retrieveAsString(n)` asks for at
most the readable bytes. -/
def InRange (b : Buffer) : Op → Prop
  | .append data => b.writerIndex_ + data.length ≤ MAX_SIZE
  | .retrieve _ => True
  | .retrieveAll => True
  | .retrieveAsString n => n ≤ b.readableBytes
  | .ensureWritableBytes n => b.writerIndex_ + n ≤ MAX_SIZE

/-- Every call of the sequence satisfies `InRange` in the state it is made in. -/
def InRangeAll (b : Buffer) : List Op → Prop
  | [] => True
  | op :: ops => b.InRange op ∧ ∀ b', b.step op = .returned b' → b'.InRangeAll ops

end Buffer

/-! ## Channel interest mask (src/Channel.h)

An `int` mask is represented by its 32-bit two's-complement bit pattern, a
natural number below `2^32`; `|`, `&` and `~` act on the pattern. -/

/-- The number of bit patterns of the 32-bit type `int`. -/
def INT_MOD : Nat := 2 ^ 32

/-- The operator `~` on an `int` bit pattern. -/
def intNot (x : Nat) : Nat := x ^^^ (INT_MOD - 1)

/-- The conversion of an `int` to `bool`. -/
def intToBool (x : Nat) : Bool := decide (x ≠ 0)

/-- The static constants `Channel::kNoneEvent`, `kReadEvent`, `kWriteEvent`;
they are declared in `Channel.h` and their values are given elsewhere, so
they are parameters here. -/
structure ChannelConsts where
  kNoneEvent : Nat
  kReadEvent : Nat
  kWriteEvent : Nat

/-- The part of a `Channel` that the interest-mask members touch: the member
`events_`, and the requests `updateChannel(this)` its owning loop has
received so far, each recorded with the value `events_` had when it was made. -/
structure Channel where
  events_ : Nat
  loopUpdates : List Nat
  deriving DecidableEq

namespace Channel

/-- Modelled from the spec: the private member `Channel::update()` is declared
in `Channel.h` and defined outside `src/`; by the specification it invokes the
owning loop's `updateChannel(this)`.  The request is appended to
`loopUpdates`. -/
def update (c : Channel) : Channel :=
  { c with loopUpdates := c.loopUpdates ++ [c.events_] }

/-- The member `enableReading()`. -/
def enableReading (k : ChannelConsts) (c : Channel) : Channel :=
  update { c with events_ := c.events_ ||| k.kReadEvent }

/-- The member `disableReading()`. -/
def disableReading (k : ChannelConsts) (c : Channel) : Channel :=
  update { c with events_ := c.events_ &&& intNot k.kReadEvent }

/-- The member `enableWriting()`. -/
def enableWriting (k : ChannelConsts) (c : Channel) : Channel :=
  update { c with events_ := c.events_ ||| k.kWriteEvent }

/-- The member `disableWriting()`. -/
def disableWriting (k : ChannelConsts) (c : Channel) : Channel :=
  update { c with events_ := c.events_ &&& intNot k.kWriteEvent }

/-- The member `disableAll()`. -/
def disableAll (k : ChannelConsts) (c : Channel) : Channel :=
  update { c with events_ := k.kNoneEvent }

/-- The member `isNoneEvent()`. -/
def isNoneEvent (k : ChannelConsts) (c : Channel) : Bool :=
  decide (c.events_ = k.kNoneEvent)

/-- The member `isWriting()`. -/
def isWriting (k : ChannelConsts) (c : Channel) : Bool :=
  intToBool (c.events_ &&& k.kWriteEvent)

/-- The member `isReading()`. -/
def isReading (k : ChannelConsts) (c : Channel) : Bool :=
  intToBool (c.events_ &&& k.kReadEvent)

end Channel

/-- The assumptions on the three constants: all are `int` patterns,
`kNoneEvent == 0`, and the read and write masks are non-zero and share no bit. -/
def ChannelConsts.Valid (k : ChannelConsts) : Prop :=
  k.kNoneEvent = 0 ∧ k.kReadEvent ≠ 0 ∧ k.kWriteEvent ≠ 0 ∧
    k.kReadEvent &&& k.kWriteEvent = 0 ∧ k.kReadEvent < INT_MOD ∧ k.kWriteEvent < INT_MOD

instance (k : ChannelConsts) : Decidable k.Valid := by
  unfold ChannelConsts.Valid; infer_instance

/-- Sample values of the three constants: no event 0, read mask 3, write
mask 4. -/
def ChannelConsts.sample : ChannelConsts := ⟨0, 3, 4⟩

/-- A channel with write interest only (mask 4) and no request sent yet. -/
def Channel.sample : Channel := ⟨4, []⟩

/-! ## Socket::accept (src/Socket.cc) -/

/-- The fields of a `sockaddr_in`. -/
structure SockAddrIn where
  sin_family : Nat
  sin_port : Nat
  sin_addr : Nat
  deriving DecidableEq

/-- The result of `::memset(&addr, 0, sizeof(addr))`. -/
def SockAddrIn.zero : SockAddrIn := ⟨0, 0, 0⟩

/-- The value of `sizeof(sockaddr_in)`. -/
def sizeofSockAddrIn : Nat := 16

/-- The flag `SOCK_NONBLOCK` of `<sys/socket.h>` on Linux. -/
def SOCK_NONBLOCK : Nat := 0o4000

/-- The flag `SOCK_CLOEXEC` of `<sys/socket.h>` on Linux. -/
def SOCK_CLOEXEC : Nat := 0o2000000

/-- The operating system as seen by `Socket::accept`: what a call
`accept4(sockfd, &addr, &len, flags)` returns and what it leaves in `addr`,
as a function of the descriptor, the contents of `addr` and `len` before the
call, and the flags. -/
structure Kernel where
  accept4 : Int → SockAddrIn → Nat → Nat → Int × SockAddrIn

/-- The member `Socket::accept(InetAddress *peeraddr)` on a socket with
descriptor `sockfd_`: the returned descriptor and `*peeraddr` afterwards.  The
class `InetAddress` is left abstract (type `A`) and its member `setSockAddr`,
which is defined outside `src/`, is the parameter `setSockAddr`. -/
def Socket.accept {A : Type} (os : Kernel) (setSockAddr : A → SockAddrIn → A)
    (sockfd_ : Int) (peeraddr : A) : Int × A :=
  let addr := SockAddrIn.zero
  let len := sizeofSockAddrIn
  let (connfd, addr') := os.accept4 sockfd_ addr len (SOCK_NONBLOCK ||| SOCK_CLOEXEC)
  if connfd ≥ 0 then (connfd, setSockAddr peeraddr addr') else (connfd, peeraddr)

/-! ## Lemmas on size_t arithmetic and the memory primitives -/

theorem sizeAdd_of_lt {a b : Nat} (h : a + b < SIZE_T_MOD) : sizeAdd a b = a + b :=
  Nat.mod_eq_of_lt h

theorem sizeSub_of_le {a b : Nat} (hba : b ≤ a) (ha : a < SIZE_T_MOD) :
    sizeSub a b = a - b := by
  unfold sizeSub
  have h : a + SIZE_T_MOD - b = (a - b) + SIZE_T_MOD := by omega
  rw [h, Nat.add_mod_right]
  exact Nat.mod_eq_of_lt (by omega)

theorem stringAt_of_le {mem : List Byte} {off n : Nat} (h : off + n ≤ mem.length) :
    stringAt mem off n = some ((mem.drop off).take n) := by
  simp [stringAt, h]

/-- Pointwise description of the forward copy loop when the destination does
not lie after the source: every iteration reads a byte that no earlier
iteration has overwritten. -/
theorem copyLoop_spec (count : Nat) :
    ∀ (mem : List Byte) (first dst : Nat), dst ≤ first → first + count ≤ mem.length →
      ∃ mem', copyLoop mem first dst count = some mem' ∧ mem'.length = mem.length ∧
        ∀ i, mem'[i]? =
          if dst ≤ i ∧ i < dst + count then mem[first + (i - dst)]? else mem[i]? := by
  induction count with
  | zero =>
    intro mem first dst _ _
    refine ⟨mem, rfl, rfl, fun i => ?_⟩
    have : ¬ (dst ≤ i ∧ i < dst) := by omega
    simp [this]
  | succ k ih =>
    intro mem first dst hdf hlen
    have hf : first < mem.length := by omega
    have hd : dst < mem.length := by omega
    obtain ⟨mem', h1, h2, h3⟩ :=
      ih (mem.set dst mem[first]) (first + 1) (dst + 1) (by omega)
        (by rw [List.length_set]; omega)
    refine ⟨mem', ?_, ?_, fun i => ?_⟩
    · simp only [copyLoop, List.getElem?_eq_getElem hf, hd, if_true]
      exact h1
    · rw [h2, List.length_set]
    · rw [h3 i]
      by_cases hi : dst + 1 ≤ i ∧ i < dst + 1 + k
      · have hi' : dst ≤ i ∧ i < dst + (k + 1) := by omega
        rw [if_pos hi, if_pos hi', List.getElem?_set]
        have hne : ¬ dst = first + 1 + (i - (dst + 1)) := by omega
        rw [if_neg hne]
        congr 1
        omega
      · rw [if_neg hi, List.getElem?_set]
        by_cases hid : dst = i
        · subst hid
          have hi' : dst ≤ dst ∧ dst < dst + (k + 1) := by omega
          rw [if_pos rfl, if_pos hi']
          simp [hd, hf]
        · have hi' : ¬ (dst ≤ i ∧ i < dst + (k + 1)) := by omega
          rw [if_neg hid, if_neg hi']

/-- The forward copy of `[first, last)` down to `dst <= first` succeeds, keeps
the length, leaves the bytes below `dst` alone and puts the source block at
`dst`. -/
theorem copyWithin_spec (mem : List Byte) {first last dst : Nat}
    (hdf : dst ≤ first) (hfl : first ≤ last) (hl : last ≤ mem.length) :
    ∃ mem', copyWithin mem first last dst = some mem' ∧ mem'.length = mem.length ∧
      (mem'.drop dst).take (last - first) = (mem.drop first).take (last - first) := by
  obtain ⟨mem', h1, h2, h3⟩ :=
    copyLoop_spec (last - first) mem first dst hdf (by omega)
  refine ⟨mem', by simp [copyWithin, hfl, h1], h2, ?_⟩
  apply List.ext_getElem?
  intro i
  rw [List.getElem?_take, List.getElem?_take]
  by_cases hi : i < last - first
  · rw [if_pos hi, if_pos hi, List.getElem?_drop, List.getElem?_drop, h3]
    have : dst ≤ dst + i ∧ dst + i < dst + (last - first) := by omega
    rw [if_pos this]
    congr 1
    omega
  · rw [if_neg hi, if_neg hi]

/-- Storing an external range that fits writes exactly the block
`[dst, dst + data.length)`. -/
theorem copyIn_spec (data : List Byte) :
    ∀ (mem : List Byte) (dst : Nat), dst + data.length ≤ mem.length →
      copyIn data mem dst = some (mem.take dst ++ data ++ mem.drop (dst + data.length)) := by
  induction data with
  | nil => intro mem dst _; simp [copyIn]
  | cons c rest ih =>
    intro mem dst h
    simp only [List.length_cons] at h
    have hd : dst < mem.length := by omega
    simp only [copyIn, hd, if_true]
    rw [ih (mem.set dst c) (dst + 1) (by rw [List.length_set]; omega)]
    congr 1
    have hset : mem.set dst c = mem.take dst ++ c :: mem.drop (dst + 1) := by
      rw [List.set_eq_take_append_cons_drop, if_pos hd]
    have hlen : (mem.take dst).length = dst := by
      rw [List.length_take]; omega
    have e1 : (mem.take dst ++ c :: mem.drop (dst + 1)).take (dst + 1) = mem.take dst ++ [c] := by
      rw [List.take_append_eq_append_take, hlen]
      simp [List.take_of_length_le, hlen]
    have e2 : (mem.take dst ++ c :: mem.drop (dst + 1)).drop (dst + 1 + rest.length)
        = mem.drop (dst + (rest.length + 1)) := by
      rw [List.drop_append_eq_append_drop, hlen]
      have h3 : dst + 1 + rest.length - dst = rest.length + 1 := by omega
      rw [h3, List.drop_of_length_le (by rw [hlen]; omega)]
      simp only [List.nil_append, List.drop_succ_cons, List.drop_drop]
      congr 1
      omega
    rw [hset, e1, e2]
    simp

/-! ## Lemmas on the vector -/

theorem max_size_val : MAX_SIZE = 9223372036854775807 := by
  norm_num [MAX_SIZE]

theorem size_t_mod_val : SIZE_T_MOD = 18446744073709551616 := by
  norm_num [SIZE_T_MOD]

/-- Two blocks that agree on their first `s` bytes agree on every range inside
those bytes. -/
theorem take_drop_of_take_eq {d d' : List Byte} {s off n : Nat}
    (h : d'.take s = d.take s) (ho : off + n ≤ s) :
    (d'.drop off).take n = (d.drop off).take n := by
  have e : d'.take (off + n) = d.take (off + n) := by
    rw [← Nat.min_eq_left ho, ← List.take_take, ← List.take_take, h]
  rw [List.take_drop, List.take_drop, e]

theorem stringAt_of_take_eq {d d' : List Byte} {s off n : Nat}
    (h : d'.take s = d.take s) (hs : s ≤ d.length) (hs' : s ≤ d'.length)
    (ho : off + n ≤ s) : stringAt d' off n = stringAt d off n := by
  rw [stringAt_of_le (by omega), stringAt_of_le (by omega), take_drop_of_take_eq h ho]

namespace Vec

theorem resize_shrink {v : Vec} {n : Nat} (h : n ≤ v.size) :
    v.resize n = some { v with size := n } := by
  simp only [resize, if_pos h]

theorem resize_throw {v : Vec} {n : Nat} (h1 : v.size < n) (h2 : v.data.length < n)
    (h3 : MAX_SIZE < n) : v.resize n = none := by
  simp only [resize, if_neg (Nat.not_le.mpr h1), if_neg (Nat.not_le.mpr h2), if_pos h3]

/-- A growing `resize` within the capacity or within `max_size()` returns a
vector of the requested size that keeps the old elements. -/
theorem resize_grow {v : Vec} {n : Nat} (hv : v.size ≤ v.data.length) (h : v.size < n)
    (hn : n ≤ v.data.length ∨ n ≤ MAX_SIZE) :
    ∃ v', v.resize n = some v' ∧ v'.size = n ∧ n ≤ v'.data.length ∧
      v.data.length ≤ v'.data.length ∧
      v'.data.take v.size = v.data.take v.size := by
  have hlen : (v.data.take v.size).length = v.size := by
    rw [List.length_take]; omega
  by_cases hc : n ≤ v.data.length
  · refine ⟨⟨v.data.take v.size ++ List.replicate (n - v.size) 0 ++ v.data.drop n, n⟩,
      ?_, rfl, ?_, ?_, ?_⟩
    · simp only [resize, if_neg (Nat.not_le.mpr h), if_pos hc]
    · simp only [List.length_append, hlen, List.length_replicate, List.length_drop]; omega
    · simp only [List.length_append, hlen, List.length_replicate, List.length_drop]; omega
    · simp only [List.append_assoc]
      rw [List.take_append_of_le_length (by omega), List.take_of_length_le (by omega)]
  · have hm : n ≤ MAX_SIZE := by
      rcases hn with h' | h'
      · exact absurd h' hc
      · exact h'
    have hg : n ≤ grownCapacity v.size n := by
      unfold grownCapacity
      exact Nat.le_min.mpr ⟨by omega, hm⟩
    refine ⟨⟨v.data.take v.size ++ List.replicate (grownCapacity v.size n - v.size) 0, n⟩,
      ?_, rfl, ?_, ?_, ?_⟩
    · simp only [resize, if_neg (Nat.not_le.mpr h), if_neg hc, if_neg (Nat.not_lt.mpr hm)]
    · simp only [List.length_append, hlen, List.length_replicate]; omega
    · simp only [List.length_append, hlen, List.length_replicate]; omega
    · rw [List.take_append_of_le_length (by omega), List.take_of_length_le (by omega)]

/-- Whatever `resize` returns, the old elements that are still below the old
end are where they were, and the block is at least as long as the old size. -/
theorem resize_data {v v' : Vec} {n : Nat} (hv : v.size ≤ v.data.length)
    (h : v.resize n = some v') :
    v'.data.take v.size = v.data.take v.size ∧ v.size ≤ v'.data.length := by
  by_cases hs : n ≤ v.size
  · rw [resize_shrink hs] at h
    cases h
    exact ⟨rfl, hv⟩
  · have hlt : v.size < n := Nat.not_le.mp hs
    by_cases hc : n ≤ v.data.length ∨ n ≤ MAX_SIZE
    · obtain ⟨w, h1, _, h3, _, h5⟩ := resize_grow hv hlt hc
      rw [h1] at h
      cases h
      exact ⟨h5, by omega⟩
    · rw [resize_throw hlt (by omega) (by omega)] at h
      cases h

end Vec

/-! ## Lemmas on the Buffer operations -/

namespace Buffer

theorem readableBytes_eq {b : Buffer} (hi : b.IndexInv) (hs : b.SizeFits) :
    b.readableBytes = b.writerIndex_ - b.readerIndex_ := by
  obtain ⟨_, h2, h3⟩ := hi
  obtain ⟨_, hs2⟩ := hs
  exact sizeSub_of_le h2 (by omega)

theorem writableBytes_eq {b : Buffer} (hi : b.IndexInv) (hs : b.SizeFits) :
    b.writableBytes = b.buffer_.size - b.writerIndex_ :=
  sizeSub_of_le hi.2.2 hs.2

theorem readable_eq {b : Buffer} (hi : b.IndexInv) (hs : b.SizeFits) :
    b.readable =
      some ((b.buffer_.data.drop b.readerIndex_).take (b.writerIndex_ - b.readerIndex_)) := by
  have hr := readableBytes_eq hi hs
  obtain ⟨h1, h2, h3⟩ := hi
  obtain ⟨hs1, _⟩ := hs
  unfold readable peek
  rw [hr]
  exact stringAt_of_le (by omega)

/-- The compacting branch of `makeSpace`: the vector keeps its size and its
block, the indices are reset to the reserve and the readable bytes are moved
intact by the forward copy. -/
theorem makeSpace_compact {b : Buffer} (len : Nat) (hi : b.IndexInv) (hs : b.SizeFits)
    (hc : ¬ sizeAdd b.writableBytes b.prependableBytes < sizeAdd len kCheapPrepend) :
    ∃ mem, copyWithin b.buffer_.data b.readerIndex_ b.writerIndex_ kCheapPrepend = some mem ∧
      b.makeSpace len =
        .returned ⟨⟨mem, b.buffer_.size⟩, kCheapPrepend,
          kCheapPrepend + (b.writerIndex_ - b.readerIndex_)⟩ ∧
      mem.length = b.buffer_.data.length ∧
      (mem.drop kCheapPrepend).take (b.writerIndex_ - b.readerIndex_) =
        (b.buffer_.data.drop b.readerIndex_).take (b.writerIndex_ - b.readerIndex_) := by
  have hr := readableBytes_eq hi hs
  obtain ⟨h1, h2, h3⟩ := hi
  obtain ⟨hs1, hs2⟩ := hs
  obtain ⟨mem, hm1, hm2, hm3⟩ := copyWithin_spec b.buffer_.data h1 h2 (le_trans h3 hs1)
  refine ⟨mem, hm1, ?_, hm2, hm3⟩
  have hadd : sizeAdd kCheapPrepend (b.writerIndex_ - b.readerIndex_) =
      kCheapPrepend + (b.writerIndex_ - b.readerIndex_) :=
    sizeAdd_of_lt (by omega)
  simp only [makeSpace, if_neg hc, hm1, hr, hadd]

/-- The growth test of `makeSpace`, read without wrap-around. -/
theorem growTest_iff {b : Buffer} {n : Nat} (hi : b.IndexInv) (hs : b.SizeFits)
    (hn : b.writerIndex_ + n + kCheapPrepend < SIZE_T_MOD) :
    sizeAdd b.writableBytes b.prependableBytes < sizeAdd n kCheapPrepend ↔
      b.buffer_.size - b.writerIndex_ + (b.readerIndex_ - kCheapPrepend) < n := by
  rw [writableBytes_eq hi hs]
  obtain ⟨h1, h2, h3⟩ := hi
  obtain ⟨_, hs2⟩ := hs
  unfold prependableBytes
  rw [sizeAdd_of_lt (by omega), sizeAdd_of_lt (by omega)]
  omega

/-- What `ensureWritableBytes(n)` guarantees for a length the vector can
reach: it returns, keeps the invariant, the readable bytes and their number,
never shrinks the vector, and leaves room for `n` bytes at the write index. -/
theorem ensureWritableBytes_ok {b : Buffer} {n : Nat} (hi : b.IndexInv) (hs : b.SizeFits)
    (hn : b.writerIndex_ + n ≤ MAX_SIZE) :
    ∃ b', b.ensureWritableBytes n = .returned b' ∧ b'.IndexInv ∧ b'.SizeFits ∧
      b'.writerIndex_ - b'.readerIndex_ = b.writerIndex_ - b.readerIndex_ ∧
      (b'.buffer_.data.drop b'.readerIndex_).take (b.writerIndex_ - b.readerIndex_) =
        (b.buffer_.data.drop b.readerIndex_).take (b.writerIndex_ - b.readerIndex_) ∧
      b'.writerIndex_ + n ≤ b'.buffer_.size ∧
      b.buffer_.size ≤ b'.buffer_.size ∧
      b'.writerIndex_ ≤ b.writerIndex_ := by
  have hmax := max_size_val
  have hmod := size_t_mod_val
  have hk : kCheapPrepend = 8 := rfl
  have hw := writableBytes_eq hi hs
  have hg := growTest_iff (n := n) hi hs (by omega)
  have hi0 := hi
  have hs0 := hs
  obtain ⟨h1, h2, h3⟩ := hi
  obtain ⟨hs1, hs2⟩ := hs
  unfold ensureWritableBytes
  by_cases hlt : b.writableBytes < n
  · rw [if_pos hlt]
    rw [hw] at hlt
    by_cases hc : sizeAdd b.writableBytes b.prependableBytes < sizeAdd n kCheapPrepend
    · have hadd : sizeAdd b.writerIndex_ n = b.writerIndex_ + n := sizeAdd_of_lt (by omega)
      obtain ⟨v, hv1, hv2, hv3, _, hv5⟩ :=
        Vec.resize_grow (v := b.buffer_) (n := b.writerIndex_ + n) hs1 (by omega) (Or.inr hn)
      refine ⟨{ b with buffer_ := v }, ?_, ⟨h1, h2, ?_⟩, ⟨?_, ?_⟩, rfl, ?_, ?_, ?_, le_refl _⟩
      · simp only [makeSpace, if_pos hc, hadd, hv1]
      · simp only [hv2]; omega
      · simp only [hv2]; exact hv3
      · simp only [hv2]; omega
      · show (v.data.drop b.readerIndex_).take (b.writerIndex_ - b.readerIndex_) =
          (b.buffer_.data.drop b.readerIndex_).take (b.writerIndex_ - b.readerIndex_)
        exact take_drop_of_take_eq hv5 (by omega)
      · simp only [hv2]; omega
      · simp only [hv2]; omega
    · obtain ⟨mem, _, hm1, hm2, hm3⟩ := makeSpace_compact n hi0 hs0 hc
      have hng := mt hg.mpr hc
      refine ⟨⟨⟨mem, b.buffer_.size⟩, kCheapPrepend,
        kCheapPrepend + (b.writerIndex_ - b.readerIndex_)⟩, hm1, ⟨le_refl _, ?_, ?_⟩,
        ⟨?_, hs2⟩, ?_, hm3, ?_, le_refl _, ?_⟩
      · simp only; omega
      · simp only; omega
      · simp only [hm2]; exact hs1
      · simp only; omega
      · simp only; omega
      · simp only; omega
  · rw [if_neg hlt]
    rw [hw] at hlt
    exact ⟨b, rfl, ⟨h1, h2, h3⟩, ⟨hs1, hs2⟩, rfl, rfl, by omega, le_refl _, le_refl _⟩

/-- The compacting branch keeps the readable bytes, for every requested
length, wrapping or not. -/
theorem ensureWritableBytes_compact {b : Buffer} {n : Nat} (hi : b.IndexInv)
    (hs : b.SizeFits) (hlt : b.writableBytes < n)
    (hc : ¬ sizeAdd b.writableBytes b.prependableBytes < sizeAdd n kCheapPrepend) :
    ∃ b', b.ensureWritableBytes n = .returned b' ∧ b'.IndexInv ∧ b'.SizeFits ∧
      b'.buffer_.size = b.buffer_.size ∧
      b'.buffer_.data.length = b.buffer_.data.length ∧
      copyWithin b.buffer_.data b.readerIndex_ b.writerIndex_ kCheapPrepend =
        some b'.buffer_.data ∧
      b'.readerIndex_ = kCheapPrepend ∧
      b'.writerIndex_ = kCheapPrepend + b.readableBytes ∧
      b'.readableBytes = b.readableBytes ∧ b'.readable = b.readable := by
  obtain ⟨mem, hm0, hm1, hm2, hm3⟩ := makeSpace_compact n hi hs hc
  have hr := readableBytes_eq hi hs
  have hrd := readable_eq hi hs
  obtain ⟨h1, h2, h3⟩ := hi
  obtain ⟨hs1, hs2⟩ := hs
  have hi' : IndexInv ⟨⟨mem, b.buffer_.size⟩, kCheapPrepend,
      kCheapPrepend + (b.writerIndex_ - b.readerIndex_)⟩ :=
    ⟨le_refl _, by simp only; omega, by simp only; omega⟩
  have hs' : SizeFits ⟨⟨mem, b.buffer_.size⟩, kCheapPrepend,
      kCheapPrepend + (b.writerIndex_ - b.readerIndex_)⟩ :=
    ⟨by simp only [hm2]; exact hs1, hs2⟩
  refine ⟨⟨⟨mem, b.buffer_.size⟩, kCheapPrepend,
    kCheapPrepend + (b.writerIndex_ - b.readerIndex_)⟩,
    by simp only [ensureWritableBytes, if_pos hlt, hm1], hi', hs', rfl, hm2, hm0, rfl,
    by rw [hr], ?_, ?_⟩
  · rw [readableBytes_eq hi' hs', hr]; simp only; omega
  · rw [readable_eq hi' hs', hrd]
    simp only [Nat.add_sub_cancel_left, hm3]

/-- For every requested length, wrapping or not, `ensureWritableBytes` touches
no memory outside the block and leaves the number of readable bytes and the
readable bytes themselves as they were, whether it returns or is left by
`std::length_error`. -/
theorem ensureWritableBytes_keeps_readable {b : Buffer} (n : Nat) (hi : b.IndexInv)
    (hs : b.SizeFits) :
    ∃ b', (b.ensureWritableBytes n).buffer = some b' ∧
      b'.readableBytes = b.readableBytes ∧ b'.readable = b.readable := by
  by_cases hlt : b.writableBytes < n
  · by_cases hc : sizeAdd b.writableBytes b.prependableBytes < sizeAdd n kCheapPrepend
    · cases hres : b.buffer_.resize (sizeAdd b.writerIndex_ n) with
      | none =>
        refine ⟨b, ?_, rfl, rfl⟩
        simp only [ensureWritableBytes, if_pos hlt, makeSpace, if_pos hc, hres, Outcome.buffer]
      | some v =>
        refine ⟨{ b with buffer_ := v }, ?_, rfl, ?_⟩
        · simp only [ensureWritableBytes, if_pos hlt, makeSpace, if_pos hc, hres,
            Outcome.buffer]
        · have hd := Vec.resize_data hs.1 hres
          have hr := readableBytes_eq hi hs
          obtain ⟨h1, h2, h3⟩ := hi
          unfold readable peek readableBytes
          simp only
          unfold readableBytes at hr
          rw [hr]
          exact stringAt_of_take_eq hd.1 hs.1 hd.2 (by omega)
    · obtain ⟨b', k1, _, _, _, _, _, _, _, k9, k10⟩ := ensureWritableBytes_compact hi hs hlt hc
      exact ⟨b', by rw [k1]; rfl, k9, k10⟩
  · exact ⟨b, by simp only [ensureWritableBytes, if_neg hlt, Outcome.buffer], rfl, rfl⟩

/-- A requested length within `kCheapPrepend` of `2^64` makes `len + kCheapPrepend`
wrap: `makeSpace` then compacts instead of growing, and fewer than `n` bytes
are writable afterwards. -/
theorem ensureWritableBytes_wrap {b : Buffer} {n : Nat} (hi : b.IndexInv) (hs : b.SizeFits)
    (hlo : SIZE_T_MOD ≤ n + kCheapPrepend) (hhi : n < SIZE_T_MOD) :
    ∃ b', b.ensureWritableBytes n = .returned b' ∧ b'.buffer_.size = b.buffer_.size ∧
      b'.writableBytes < n := by
  have hw := writableBytes_eq hi hs
  have hi0 := hi
  have hs0 := hs
  obtain ⟨h1, h2, h3⟩ := hi
  obtain ⟨hs1, hs2⟩ := hs
  have hlt : b.writableBytes < n := by rw [hw]; omega
  have hc : ¬ sizeAdd b.writableBytes b.prependableBytes < sizeAdd n kCheapPrepend := by
    rw [hw]
    unfold prependableBytes
    rw [sizeAdd_of_lt (by omega)]
    have e : sizeAdd n kCheapPrepend = n + kCheapPrepend - SIZE_T_MOD := by
      unfold sizeAdd
      have e2 : n + kCheapPrepend = (n + kCheapPrepend - SIZE_T_MOD) + SIZE_T_MOD := by omega
      rw [e2, Nat.add_mod_right, Nat.add_sub_cancel]
      exact Nat.mod_eq_of_lt (by omega)
    rw [e]; omega
  obtain ⟨b', k1, k2, k3, k4, _, _, k5, _, _, _⟩ := ensureWritableBytes_compact hi0 hs0 hlt hc
  refine ⟨b', k1, k4, ?_⟩
  rw [writableBytes_eq k2 k3, k4]
  obtain ⟨j1, j2, j3⟩ := k2
  omega

/-- The bytes between `r` and `w + S.length` once `S` has been stored at `w`. -/
theorem content_after_write (mem S : List Byte) (r w : Nat) (hrw : r ≤ w)
    (h : w + S.length ≤ mem.length) :
    ((mem.take w ++ S ++ mem.drop (w + S.length)).drop r).take (w + S.length - r) =
      (mem.drop r).take (w - r) ++ S := by
  have hlen : (mem.take w).length = w := by rw [List.length_take]; omega
  rw [List.append_assoc, List.drop_append_of_le_length (by omega), List.drop_take]
  have hl2 : ((mem.drop r).take (w - r)).length = w - r := by
    rw [List.length_take, List.length_drop]; omega
  rw [← List.append_assoc]
  have e : w + S.length - r = ((mem.drop r).take (w - r) ++ S).length := by
    rw [List.length_append, hl2]; omega
  rw [e, List.take_left]

/-- What `append` guarantees for a source range the vector can take in: it
returns, keeps the invariant, never shrinks the vector, and the readable
bytes become the old ones followed by the appended ones. -/
theorem append_ok {b : Buffer} {S : List Byte} (hi : b.IndexInv) (hs : b.SizeFits)
    (hn : b.writerIndex_ + S.length ≤ MAX_SIZE) :
    ∃ b', b.append S = .returned b' ∧ b'.IndexInv ∧ b'.SizeFits ∧
      b'.writerIndex_ - b'.readerIndex_ = b.writerIndex_ - b.readerIndex_ + S.length ∧
      (b'.buffer_.data.drop b'.readerIndex_).take
          (b.writerIndex_ - b.readerIndex_ + S.length) =
        (b.buffer_.data.drop b.readerIndex_).take (b.writerIndex_ - b.readerIndex_) ++ S ∧
      b.buffer_.size ≤ b'.buffer_.size := by
  have hmax := max_size_val
  have hmod := size_t_mod_val
  obtain ⟨b1, he, ⟨i1, i2, i3⟩, ⟨hs1, hs2⟩, hrd, hct, hroom, hsz, hwle⟩ :=
    ensureWritableBytes_ok hi hs hn
  have hroom' : b1.writerIndex_ + S.length ≤ b1.buffer_.data.length := le_trans hroom hs1
  have hcopy := copyIn_spec S b1.buffer_.data b1.writerIndex_ hroom'
  have hadd : sizeAdd b1.writerIndex_ S.length = b1.writerIndex_ + S.length :=
    sizeAdd_of_lt (by omega)
  have hlen : (b1.buffer_.data.take b1.writerIndex_ ++ S ++
      b1.buffer_.data.drop (b1.writerIndex_ + S.length)).length = b1.buffer_.data.length := by
    simp only [List.length_append, List.length_take, List.length_drop]
    omega
  refine ⟨⟨⟨b1.buffer_.data.take b1.writerIndex_ ++ S ++
        b1.buffer_.data.drop (b1.writerIndex_ + S.length), b1.buffer_.size⟩,
      b1.readerIndex_, b1.writerIndex_ + S.length⟩,
    by simp only [append, he, beginWrite, hcopy, hadd], ⟨i1, ?_, ?_⟩, ⟨?_, hs2⟩, ?_, ?_, hsz⟩
  · simp only; omega
  · exact hroom
  · simp only [hlen]; exact hs1
  · simp only; omega
  · have hcw := content_after_write b1.buffer_.data S b1.readerIndex_ b1.writerIndex_ i2 hroom'
    have e : b1.writerIndex_ + S.length - b1.readerIndex_ =
        b.writerIndex_ - b.readerIndex_ + S.length := by omega
    rw [e, hrd, hct] at hcw
    exact hcw

theorem retrieveAll_inv {b : Buffer} (hi : b.IndexInv) : b.retrieveAll.IndexInv := by
  obtain ⟨h1, h2, h3⟩ := hi
  exact ⟨le_refl _, le_refl _, by simp only [retrieveAll]; omega⟩

theorem retrieve_of_lt {b : Buffer} {n : Nat} (hi : b.IndexInv) (hs : b.SizeFits)
    (hn : n < b.writerIndex_ - b.readerIndex_) :
    b.retrieve n = { b with readerIndex_ := b.readerIndex_ + n } := by
  have hr := readableBytes_eq hi hs
  obtain ⟨h1, h2, h3⟩ := hi
  obtain ⟨_, hs2⟩ := hs
  have hadd : sizeAdd b.readerIndex_ n = b.readerIndex_ + n := sizeAdd_of_lt (by omega)
  simp only [retrieve, hr, if_pos hn, hadd]

theorem retrieve_of_ge {b : Buffer} {n : Nat} (hi : b.IndexInv) (hs : b.SizeFits)
    (hn : b.writerIndex_ - b.readerIndex_ ≤ n) : b.retrieve n = b.retrieveAll := by
  have hr := readableBytes_eq hi hs
  simp only [retrieve, hr, if_neg (Nat.not_lt.mpr hn)]

/-- The operation `retrieve(n)` keeps the invariant and the vector, whatever `n`. -/
theorem retrieve_ok {b : Buffer} (n : Nat) (hi : b.IndexInv) (hs : b.SizeFits) :
    (b.retrieve n).IndexInv ∧ (b.retrieve n).SizeFits ∧
      (b.retrieve n).buffer_ = b.buffer_ := by
  by_cases hn : n < b.writerIndex_ - b.readerIndex_
  · rw [retrieve_of_lt hi hs hn]
    obtain ⟨h1, h2, h3⟩ := hi
    exact ⟨⟨by simp only; omega, by simp only; omega, h3⟩, hs, rfl⟩
  · rw [retrieve_of_ge hi hs (Nat.not_lt.mp hn)]
    exact ⟨retrieveAll_inv hi, hs, rfl⟩

/-- The operation `retrieveAsString(n)` with `n` at most the number of readable
bytes returns the first `n` of them and leaves the others readable. -/
theorem retrieveAsString_ok {b : Buffer} {R : List Byte} {n : Nat} (hi : b.IndexInv)
    (hs : b.SizeFits) (hR : b.readable = some R) (hn : n ≤ R.length) :
    b.retrieveAsString n = some (R.take n, b.retrieve n) ∧
      (b.retrieve n).readable = some (R.drop n) := by
  have hinv := retrieve_ok n hi hs
  rw [readable_eq hi hs] at hR
  have hR' := Option.some.inj hR
  have hs1 := hs.1
  have hlen : R.length = b.writerIndex_ - b.readerIndex_ := by
    obtain ⟨h1, h2, h3⟩ := hi
    rw [← hR', List.length_take, List.length_drop]; omega
  obtain ⟨h1, h2, h3⟩ := hi
  constructor
  · have hst : stringAt b.buffer_.data b.readerIndex_ n =
        some ((b.buffer_.data.drop b.readerIndex_).take n) := stringAt_of_le (by omega)
    simp only [retrieveAsString, peek, hst]
    rw [← hR', List.take_take, Nat.min_eq_left (by omega)]
  · rw [readable_eq hinv.1 hinv.2.1]
    by_cases hlt : n < b.writerIndex_ - b.readerIndex_
    · rw [retrieve_of_lt ⟨h1, h2, h3⟩ hs hlt]
      simp only
      rw [← hR', List.drop_take, List.drop_drop]
      have e : b.writerIndex_ - (b.readerIndex_ + n) = b.writerIndex_ - b.readerIndex_ - n := by
        omega
      rw [e]
    · rw [retrieve_of_ge ⟨h1, h2, h3⟩ hs (Nat.not_lt.mp hlt)]
      simp only [retrieveAll, Nat.sub_self, List.take_zero]
      rw [List.drop_of_length_le (by omega)]

end Buffer

/-! ## Sequences of operations within the reach of the vector -/

namespace Buffer

theorem new_inv {n : Nat} (h : kCheapPrepend + n ≤ MAX_SIZE) :
    ∃ b, new n = some b ∧ b.IndexInv ∧ b.SizeFits ∧ b.buffer_.size = kCheapPrepend + n ∧
      b.readable = some [] := by
  have hmax := max_size_val
  have hmod := size_t_mod_val
  have hadd : sizeAdd kCheapPrepend n = kCheapPrepend + n := sizeAdd_of_lt (by omega)
  have hi : IndexInv ⟨⟨List.replicate (kCheapPrepend + n) 0, kCheapPrepend + n⟩,
      kCheapPrepend, kCheapPrepend⟩ := ⟨le_refl _, le_refl _, Nat.le_add_right _ _⟩
  have hs : SizeFits ⟨⟨List.replicate (kCheapPrepend + n) 0, kCheapPrepend + n⟩,
      kCheapPrepend, kCheapPrepend⟩ :=
    ⟨by simp only [List.length_replicate]; exact le_refl _, by simp only; omega⟩
  refine ⟨⟨⟨List.replicate (kCheapPrepend + n) 0, kCheapPrepend + n⟩,
    kCheapPrepend, kCheapPrepend⟩, ?_, hi, hs, rfl, ?_⟩
  · simp only [new, hadd, Vec.make, if_neg (Nat.not_lt.mpr h)]
  · rw [readable_eq hi hs]
    simp only [Nat.sub_self, List.take_zero]

/-- Just after `retrieveAll()` a buffer has nothing to read. -/
theorem retrieveAll_readable {b : Buffer} (hi : b.IndexInv) (hs : b.SizeFits) :
    b.retrieveAll.readable = some [] := by
  rw [readable_eq (retrieveAll_inv hi) hs]
  simp only [retrieveAll, Nat.sub_self, List.take_zero]

/-- One call within reach returns, keeps the invariant and does not shrink
the vector. -/
theorem step_ok {b : Buffer} {op : Op} (hi : b.IndexInv) (hs : b.SizeFits)
    (hop : b.InRange op) :
    ∃ b', b.step op = .returned b' ∧ b'.IndexInv ∧ b'.SizeFits ∧
      b.buffer_.size ≤ b'.buffer_.size := by
  cases op with
  | append data =>
    obtain ⟨b', h1, h2, h3, _, _, h6⟩ := append_ok (S := data) hi hs hop
    exact ⟨b', h1, h2, h3, h6⟩
  | retrieve n =>
    have h := retrieve_ok n hi hs
    exact ⟨b.retrieve n, rfl, h.1, h.2.1, by rw [h.2.2]⟩
  | retrieveAll =>
    exact ⟨b.retrieveAll, rfl, retrieveAll_inv hi, hs, le_refl _⟩
  | retrieveAsString n =>
    have h := retrieve_ok n hi hs
    have hn : n ≤ b.writerIndex_ - b.readerIndex_ := by
      rw [← readableBytes_eq hi hs]; exact hop
    obtain ⟨h1, h2, h3⟩ := hi
    have hs1 := hs.1
    have hst : stringAt b.buffer_.data b.readerIndex_ n =
        some ((b.buffer_.data.drop b.readerIndex_).take n) := stringAt_of_le (by omega)
    refine ⟨b.retrieve n, ?_, h.1, h.2.1, by rw [h.2.2]⟩
    simp only [step, retrieveAsString, peek, hst]
  | ensureWritableBytes n =>
    obtain ⟨b', h1, h2, h3, _, _, _, h7, _⟩ := ensureWritableBytes_ok (n := n) hi hs hop
    exact ⟨b', h1, h2, h3, h7⟩

/-- A sequence of calls all within reach returns, keeps the invariant and does
not shrink the vector. -/
theorem run_ok (ops : List Op) :
    ∀ {b : Buffer}, b.IndexInv → b.SizeFits → b.InRangeAll ops →
      ∃ b', b.run ops = .returned b' ∧ b'.IndexInv ∧ b'.SizeFits ∧
        b.buffer_.size ≤ b'.buffer_.size := by
  induction ops with
  | nil => intro b hi hs _; exact ⟨b, rfl, hi, hs, le_refl _⟩
  | cons op ops ih =>
    intro b hi hs hall
    obtain ⟨b1, h1, h2, h3, h4⟩ := step_ok hi hs hall.1
    obtain ⟨b2, k1, k2, k3, k4⟩ := ih h2 h3 (hall.2 b1 h1)
    exact ⟨b2, by simp only [run, h1, k1], k2, k3, le_trans h4 k4⟩

/-- Two successive `retrieve` calls within the readable bytes leave the buffer
as one call for the sum does. -/
theorem retrieve_retrieve {b : Buffer} {a c : Nat} (hi : b.IndexInv) (hs : b.SizeFits)
    (hac : a + c ≤ b.writerIndex_ - b.readerIndex_) :
    (b.retrieve a).retrieve c = b.retrieve (a + c) := by
  have hinv := retrieve_ok a hi hs
  by_cases hlt : a + c < b.writerIndex_ - b.readerIndex_
  · have ha : a < b.writerIndex_ - b.readerIndex_ := by omega
    rw [retrieve_of_lt hi hs hlt]
    have hc : c < (b.retrieve a).writerIndex_ - (b.retrieve a).readerIndex_ := by
      rw [retrieve_of_lt hi hs ha]; simp only; omega
    rw [retrieve_of_lt hinv.1 hinv.2.1 hc, retrieve_of_lt hi hs ha]
    simp only [Nat.add_assoc]
  · rw [retrieve_of_ge hi hs (Nat.not_lt.mp hlt)]
    have hc : (b.retrieve a).writerIndex_ - (b.retrieve a).readerIndex_ ≤ c := by
      by_cases ha : a < b.writerIndex_ - b.readerIndex_
      · rw [retrieve_of_lt hi hs ha]; simp only; omega
      · rw [retrieve_of_ge hi hs (Nat.not_lt.mp ha)]; simp only [retrieveAll]; omega
    rw [retrieve_of_ge hinv.1 hinv.2.1 hc]
    by_cases ha : a < b.writerIndex_ - b.readerIndex_
    · rw [retrieve_of_lt hi hs ha]; rfl
    · rw [retrieve_of_ge hi hs (Nat.not_lt.mp ha)]; rfl

end Buffer

/-! ## Lemmas on int bit patterns -/

theorem testBit_intNot {x : Nat} (hx : x < INT_MOD) (i : Nat) :
    (intNot x).testBit i = (decide (i < 32) && !x.testBit i) := by
  unfold intNot INT_MOD
  rw [Nat.testBit_xor, Nat.testBit_two_pow_sub_one]
  by_cases hi : i < 32
  · simp [hi]
  · have hx' : x < 2 ^ i :=
      lt_of_lt_of_le hx (Nat.pow_le_pow_right (by decide) (Nat.not_lt.mp hi))
    simp [hi, Nat.testBit_lt_two_pow hx']

theorem disjoint_bits {x y : Nat} (h : x &&& y = 0) (i : Nat) :
    (x.testBit i && y.testBit i) = false := by
  rw [← Nat.testBit_and, h, Nat.zero_testBit]

theorem or_and_self_mask (e k : Nat) : (e ||| k) &&& k = k := by
  apply Nat.eq_of_testBit_eq
  intro i
  rw [Nat.testBit_and, Nat.testBit_or]
  cases e.testBit i <;> cases k.testBit i <;> rfl

theorem or_and_other_mask {k j : Nat} (e : Nat) (h : k &&& j = 0) :
    (e ||| k) &&& j = e &&& j := by
  apply Nat.eq_of_testBit_eq
  intro i
  have hb := disjoint_bits h i
  rw [Nat.testBit_and, Nat.testBit_or, Nat.testBit_and]
  revert hb
  cases e.testBit i <;> cases k.testBit i <;> cases j.testBit i <;> simp

theorem and_not_and_self_mask {k : Nat} (e : Nat) (hk : k < INT_MOD) :
    (e &&& intNot k) &&& k = 0 := by
  apply Nat.eq_of_testBit_eq
  intro i
  rw [Nat.testBit_and, Nat.testBit_and, testBit_intNot hk, Nat.zero_testBit]
  cases e.testBit i <;> cases k.testBit i <;> simp

theorem and_not_and_other_mask {k j : Nat} (e : Nat) (h : k &&& j = 0)
    (hk : k < INT_MOD) (hj : j < INT_MOD) :
    (e &&& intNot k) &&& j = e &&& j := by
  apply Nat.eq_of_testBit_eq
  intro i
  have hb := disjoint_bits h i
  rw [Nat.testBit_and, Nat.testBit_and, testBit_intNot hk, Nat.testBit_and]
  by_cases hi : i < 32
  · revert hb
    cases e.testBit i <;> cases k.testBit i <;> cases j.testBit i <;> simp [hi]
  · have hj' : j < 2 ^ i :=
      lt_of_lt_of_le hj (Nat.pow_le_pow_right (by decide) (Nat.not_lt.mp hi))
    simp [hi, Nat.testBit_lt_two_pow hj']

/-! ## Claims on the Buffer -/

set_option maxRecDepth 100000

/-- The sample states are the ones their descriptions name. -/
theorem samples_reached :
    Buffer.new 16 = some Buffer.sixteen ∧
      Buffer.sixteen.append Buffer.tenBytes = .returned Buffer.sampleTen ∧
      Buffer.sampleTen.retrieve 4 = Buffer.sampleSix := by
  decide

/-- C3, `ensureWritableBytes` preserves the content.  For a buffer satisfying
the index invariant and every `n`, wrapping or not: `ensureWritableBytes(n)`
touches no memory outside the block and leaves `readableBytes()` and the bytes
`peek()[0 .. readableBytes())` as they were, whether it returns or is left by
`std::length_error`; it returns whenever `writerIndex + n` is within
`max_size()`; and when `makeSpace` takes the compacting branch it returns with
the block produced by the forward copy of `[readerIndex, writerIndex)` down to
`kCheapPrepend`, the vector keeping its size and the readable content being
the one before the call. -/
theorem C3_ensureWritableBytes_preserves_readable (b : Buffer) (n : Nat)
    (hi : b.IndexInv) (hs : b.SizeFits) :
    (∃ b', (b.ensureWritableBytes n).buffer = some b' ∧
      b'.readableBytes = b.readableBytes ∧ b'.readable = b.readable) ∧
    (b.writerIndex_ + n ≤ MAX_SIZE →
      ∃ b', b.ensureWritableBytes n = .returned b' ∧
        b'.readableBytes = b.readableBytes ∧ b'.readable = b.readable) ∧
    (b.writableBytes < n →
      ¬ sizeAdd b.writableBytes b.prependableBytes < sizeAdd n kCheapPrepend →
      ∃ b', b.ensureWritableBytes n = .returned b' ∧
        copyWithin b.buffer_.data b.readerIndex_ b.writerIndex_ kCheapPrepend =
          some b'.buffer_.data ∧
        b'.buffer_.size = b.buffer_.size ∧
        b'.readerIndex_ = kCheapPrepend ∧
        b'.readableBytes = b.readableBytes ∧ b'.readable = b.readable) := by
  refine ⟨Buffer.ensureWritableBytes_keeps_readable n hi hs, ?_, ?_⟩
  · intro hn
    obtain ⟨b', h1, _⟩ := Buffer.ensureWritableBytes_ok hi hs hn
    obtain ⟨b'', k1, k2, k3⟩ := Buffer.ensureWritableBytes_keeps_readable n hi hs
    rw [h1] at k1
    cases k1
    exact ⟨b', h1, k2, k3⟩
  · intro hlt hc
    obtain ⟨b', k1, _, _, k4, _, k6, k7, _, k9, k10⟩ :=
      Buffer.ensureWritableBytes_compact hi hs hlt hc
    exact ⟨b', k1, k6, k4, k7, k9, k10⟩

/-- C3 at a concrete input: `sampleSix` (readable bytes 5, ..., 10 at offset
12) asked for nine writable bytes, which compacts them down to offset 8. -/
theorem C3_ensureWritableBytes_preserves_readable_witness :
    Buffer.sampleSix.IndexInv ∧ Buffer.sampleSix.SizeFits ∧
    Buffer.sampleSix.writableBytes < 9 ∧
    ¬ sizeAdd Buffer.sampleSix.writableBytes Buffer.sampleSix.prependableBytes
        < sizeAdd 9 kCheapPrepend ∧
    Buffer.sampleSix.readable = some [5, 6, 7, 8, 9, 10] ∧
    ((∃ b', (Buffer.sampleSix.ensureWritableBytes 9).buffer = some b' ∧
        b'.readableBytes = Buffer.sampleSix.readableBytes ∧
        b'.readable = Buffer.sampleSix.readable) ∧
      (Buffer.sampleSix.writerIndex_ + 9 ≤ MAX_SIZE →
        ∃ b', Buffer.sampleSix.ensureWritableBytes 9 = .returned b' ∧
          b'.readableBytes = Buffer.sampleSix.readableBytes ∧
          b'.readable = Buffer.sampleSix.readable) ∧
      (Buffer.sampleSix.writableBytes < 9 →
        ¬ sizeAdd Buffer.sampleSix.writableBytes Buffer.sampleSix.prependableBytes
            < sizeAdd 9 kCheapPrepend →
        ∃ b', Buffer.sampleSix.ensureWritableBytes 9 = .returned b' ∧
          copyWithin Buffer.sampleSix.buffer_.data Buffer.sampleSix.readerIndex_
              Buffer.sampleSix.writerIndex_ kCheapPrepend = some b'.buffer_.data ∧
          b'.buffer_.size = Buffer.sampleSix.buffer_.size ∧
          b'.readerIndex_ = kCheapPrepend ∧
          b'.readableBytes = Buffer.sampleSix.readableBytes ∧
          b'.readable = Buffer.sampleSix.readable)) :=
  ⟨by decide, by decide, by decide, by decide, by decide,
    C3_ensureWritableBytes_preserves_readable Buffer.sampleSix 9 (by decide) (by decide)⟩

/-- The content is also kept at a wrapping length: on `sampleTen`,
`ensureWritableBytes(2^64 - 10)` moves the end of the vector down to 8 and
the ten bytes stay in the block, where `peek()` still finds them. -/
theorem ensureWritableBytes_wrapping_length_keeps_bytes :
    Buffer.sampleTen.readable = some Buffer.tenBytes ∧
      ∃ b', Buffer.sampleTen.ensureWritableBytes (2 ^ 64 - 10) = .returned b' ∧
        b'.buffer_.size = 8 ∧ b'.buffer_.data = Buffer.sampleTen.buffer_.data ∧
        b'.readableBytes = 10 ∧ b'.readable = some Buffer.tenBytes :=
  ⟨by decide, ⟨⟨Buffer.sampleTen.buffer_.data, 8⟩, 8, 18⟩,
    by decide, by decide, by decide, by decide, by decide⟩

/-- C4 as stated fails on `sampleTen` with `n = 2^63`.  The buffer satisfies
the invariant, `writerIndex + n + kCheapPrepend` does not wrap, fewer than `n`
bytes are writable and the compaction condition fails, so `makeSpace` calls
`resize(18 + 2^63)`; that is above `max_size()`, `resize` throws
`std::length_error`, and the vector is not resized to `writerIndex + n`. -/
theorem C4_growth_above_max_size_throws :
    Buffer.sampleTen.IndexInv ∧ Buffer.sampleTen.SizeFits ∧
    Buffer.sampleTen.writerIndex_ + 2 ^ 63 + kCheapPrepend < SIZE_T_MOD ∧
    Buffer.sampleTen.writableBytes < 2 ^ 63 ∧
    Buffer.sampleTen.writableBytes + (Buffer.sampleTen.prependableBytes - kCheapPrepend)
      < 2 ^ 63 ∧
    Buffer.sampleTen.ensureWritableBytes (2 ^ 63) = .lengthError Buffer.sampleTen ∧
    ¬ ∃ b', Buffer.sampleTen.ensureWritableBytes (2 ^ 63) = .returned b' ∧
        b'.buffer_.size = Buffer.sampleTen.writerIndex_ + 2 ^ 63 ∧
        b'.readerIndex_ = Buffer.sampleTen.readerIndex_ ∧
        b'.writerIndex_ = Buffer.sampleTen.writerIndex_ := by
  have h : Buffer.sampleTen.ensureWritableBytes (2 ^ 63) =
      .lengthError Buffer.sampleTen := by decide
  refine ⟨by decide, by decide, by decide, by decide, by decide, h, ?_⟩
  rintro ⟨b', hb, _⟩
  rw [h] at hb
  cases hb

/-- C4, make-space policy, with the bound of the vector.  For a buffer
satisfying the index invariant and a length `n` with
`writerIndex + n + kCheapPrepend` not wrapping:
if `writableBytes() >= n` then `ensureWritableBytes(n)` changes nothing;
otherwise, if `writableBytes + (prependableBytes - kCheapPrepend) >= n`, the
size and the block of the vector are unchanged (no allocation), `readerIndex`
becomes `kCheapPrepend` and `writerIndex` becomes `kCheapPrepend` plus the old
`readableBytes`; else, when `writerIndex + n` is within `max_size()`, the
vector is resized to exactly the old `writerIndex + n` and both indices are
unchanged, and when `writerIndex + n` is above `max_size()` (and above the
capacity) `resize` throws `std::length_error` and the buffer is unchanged.
The growth test of the code holds exactly when the compaction condition
fails. -/
theorem C4_make_space_policy (b : Buffer) (n : Nat) (hi : b.IndexInv) (hs : b.SizeFits)
    (hn : b.writerIndex_ + n + kCheapPrepend < SIZE_T_MOD) :
    (n ≤ b.writableBytes → b.ensureWritableBytes n = .returned b) ∧
    (b.writableBytes < n →
      n ≤ b.writableBytes + (b.prependableBytes - kCheapPrepend) →
      ∃ b', b.ensureWritableBytes n = .returned b' ∧
        b'.buffer_.size = b.buffer_.size ∧
        b'.buffer_.data.length = b.buffer_.data.length ∧
        b'.readerIndex_ = kCheapPrepend ∧
        b'.writerIndex_ = kCheapPrepend + b.readableBytes) ∧
    (b.writableBytes < n →
      b.writableBytes + (b.prependableBytes - kCheapPrepend) < n →
      b.writerIndex_ + n ≤ MAX_SIZE →
      ∃ b', b.ensureWritableBytes n = .returned b' ∧
        b.buffer_.resize (b.writerIndex_ + n) = some b'.buffer_ ∧
        b'.buffer_.size = b.writerIndex_ + n ∧
        b'.readerIndex_ = b.readerIndex_ ∧
        b'.writerIndex_ = b.writerIndex_) ∧
    (b.writableBytes < n →
      b.writableBytes + (b.prependableBytes - kCheapPrepend) < n →
      MAX_SIZE < b.writerIndex_ + n → b.buffer_.data.length < b.writerIndex_ + n →
      b.ensureWritableBytes n = .lengthError b) ∧
    (sizeAdd b.writableBytes b.prependableBytes < sizeAdd n kCheapPrepend ↔
      ¬ n ≤ b.writableBytes + (b.prependableBytes - kCheapPrepend)) := by
  have hw := Buffer.writableBytes_eq hi hs
  have hr := Buffer.readableBytes_eq hi hs
  have hg := Buffer.growTest_iff hi hs hn
  have hp : b.prependableBytes = b.readerIndex_ := rfl
  have hadd : sizeAdd b.writerIndex_ n = b.writerIndex_ + n := sizeAdd_of_lt (by omega)
  refine ⟨?_, ?_, ?_, ?_, ?_⟩
  · intro h
    simp only [Buffer.ensureWritableBytes, if_neg (Nat.not_lt.mpr h)]
  · intro hlt hc
    have hng : ¬ sizeAdd b.writableBytes b.prependableBytes < sizeAdd n kCheapPrepend := by
      rw [hg]; rw [hw, hp] at hc; omega
    obtain ⟨b', k1, _, _, k4, k5, _, k7, k8, _⟩ :=
      Buffer.ensureWritableBytes_compact hi hs hlt hng
    exact ⟨b', k1, k4, k5, k7, k8⟩
  · intro hlt hc hmax
    have hgr : sizeAdd b.writableBytes b.prependableBytes < sizeAdd n kCheapPrepend := by
      rw [hg]; rw [hw, hp] at hc; exact hc
    rw [hw] at hlt
    obtain ⟨v, hv1, hv2, _⟩ :=
      Vec.resize_grow (v := b.buffer_) (n := b.writerIndex_ + n) hs.1 (by omega) (Or.inr hmax)
    refine ⟨{ b with buffer_ := v }, ?_, hv1, hv2, rfl, rfl⟩
    have hlt' : b.writableBytes < n := by rw [hw]; exact hlt
    simp only [Buffer.ensureWritableBytes, if_pos hlt', Buffer.makeSpace, if_pos hgr, hadd, hv1]
  · intro hlt hc hmax hcap
    have hgr : sizeAdd b.writableBytes b.prependableBytes < sizeAdd n kCheapPrepend := by
      rw [hg]; rw [hw, hp] at hc; exact hc
    have hsz : b.buffer_.size < b.writerIndex_ + n := lt_of_le_of_lt hs.1 hcap
    simp only [Buffer.ensureWritableBytes, if_pos hlt, Buffer.makeSpace, if_pos hgr, hadd,
      Vec.resize_throw hsz hcap hmax]
  · rw [hg, hw, hp]; omega

/-- C4 at a concrete input: `sampleSix` (6 writable bytes, 4 spare bytes in
front) asked for nine writable bytes, the compacting case. -/
theorem C4_make_space_policy_witness :
    Buffer.sampleSix.IndexInv ∧ Buffer.sampleSix.SizeFits ∧
    Buffer.sampleSix.writerIndex_ + 9 + kCheapPrepend < SIZE_T_MOD ∧
    Buffer.sampleSix.writableBytes < 9 ∧
    9 ≤ Buffer.sampleSix.writableBytes + (Buffer.sampleSix.prependableBytes - kCheapPrepend) ∧
    ((9 ≤ Buffer.sampleSix.writableBytes →
        Buffer.sampleSix.ensureWritableBytes 9 = .returned Buffer.sampleSix) ∧
      (Buffer.sampleSix.writableBytes < 9 →
        9 ≤ Buffer.sampleSix.writableBytes +
          (Buffer.sampleSix.prependableBytes - kCheapPrepend) →
        ∃ b', Buffer.sampleSix.ensureWritableBytes 9 = .returned b' ∧
          b'.buffer_.size = Buffer.sampleSix.buffer_.size ∧
          b'.buffer_.data.length = Buffer.sampleSix.buffer_.data.length ∧
          b'.readerIndex_ = kCheapPrepend ∧
          b'.writerIndex_ = kCheapPrepend + Buffer.sampleSix.readableBytes) ∧
      (Buffer.sampleSix.writableBytes < 9 →
        Buffer.sampleSix.writableBytes +
          (Buffer.sampleSix.prependableBytes - kCheapPrepend) < 9 →
        Buffer.sampleSix.writerIndex_ + 9 ≤ MAX_SIZE →
        ∃ b', Buffer.sampleSix.ensureWritableBytes 9 = .returned b' ∧
          Buffer.sampleSix.buffer_.resize (Buffer.sampleSix.writerIndex_ + 9)
            = some b'.buffer_ ∧
          b'.buffer_.size = Buffer.sampleSix.writerIndex_ + 9 ∧
          b'.readerIndex_ = Buffer.sampleSix.readerIndex_ ∧
          b'.writerIndex_ = Buffer.sampleSix.writerIndex_) ∧
      (Buffer.sampleSix.writableBytes < 9 →
        Buffer.sampleSix.writableBytes +
          (Buffer.sampleSix.prependableBytes - kCheapPrepend) < 9 →
        MAX_SIZE < Buffer.sampleSix.writerIndex_ + 9 →
        Buffer.sampleSix.buffer_.data.length < Buffer.sampleSix.writerIndex_ + 9 →
        Buffer.sampleSix.ensureWritableBytes 9 = .lengthError Buffer.sampleSix) ∧
      (sizeAdd Buffer.sampleSix.writableBytes Buffer.sampleSix.prependableBytes
          < sizeAdd 9 kCheapPrepend ↔
        ¬ 9 ≤ Buffer.sampleSix.writableBytes +
          (Buffer.sampleSix.prependableBytes - kCheapPrepend))) :=
  ⟨by decide, by decide, by decide, by decide, by decide,
    C4_make_space_policy Buffer.sampleSix 9 (by decide) (by decide) (by decide)⟩

/-- The growing case of the make-space policy on `sampleTen` asked for seven
writable bytes: the vector is resized to 25 elements in a new block of 48
bytes, and both indices and the readable bytes stay. -/
theorem ensureWritableBytes_growth_example :
    ∃ b', Buffer.sampleTen.ensureWritableBytes 7 = .returned b' ∧
      b'.buffer_.size = 25 ∧ b'.buffer_.data.length = 48 ∧
      b'.readerIndex_ = 8 ∧ b'.writerIndex_ = 18 ∧
      b'.readable = some Buffer.tenBytes :=
  ⟨⟨⟨List.replicate 8 0 ++ Buffer.tenBytes ++ List.replicate 30 0, 25⟩, 8, 18⟩,
    by decide, by decide, by decide, by decide, by decide, by decide⟩

/-- C6, retrieve.  For a buffer satisfying the index invariant and every `n`
(in particular every `n <= readableBytes()`): if `n < readableBytes()`,
`retrieve(n)` increases `readerIndex` by exactly `n` and leaves `writerIndex`,
the storage and its bytes unchanged, so `readableBytes` decreases by `n`; if
`n == readableBytes()`, it sets both indices to `kCheapPrepend`. -/
theorem C6_retrieve (b : Buffer) (n : Nat) (hi : b.IndexInv) (hs : b.SizeFits) :
    (n < b.readableBytes →
      (b.retrieve n).readerIndex_ = b.readerIndex_ + n ∧
      (b.retrieve n).writerIndex_ = b.writerIndex_ ∧
      (b.retrieve n).buffer_ = b.buffer_ ∧
      (b.retrieve n).readableBytes = b.readableBytes - n) ∧
    (n = b.readableBytes →
      (b.retrieve n).readerIndex_ = kCheapPrepend ∧
      (b.retrieve n).writerIndex_ = kCheapPrepend) := by
  have hr := Buffer.readableBytes_eq hi hs
  have hinv := Buffer.retrieve_ok n hi hs
  have hr' := Buffer.readableBytes_eq hinv.1 hinv.2.1
  constructor
  · intro hlt
    rw [hr] at hlt
    rw [hr', hr, Buffer.retrieve_of_lt hi hs hlt]
    exact ⟨rfl, rfl, rfl, by simp only; omega⟩
  · intro heq
    rw [hr] at heq
    rw [Buffer.retrieve_of_ge hi hs (le_of_eq heq.symm)]
    exact ⟨rfl, rfl⟩

/-- C6 at a concrete input: `sampleTen` (ten readable bytes), four retrieved. -/
theorem C6_retrieve_witness :
    Buffer.sampleTen.IndexInv ∧ Buffer.sampleTen.SizeFits ∧
    4 < Buffer.sampleTen.readableBytes ∧
    ((4 < Buffer.sampleTen.readableBytes →
        (Buffer.sampleTen.retrieve 4).readerIndex_ = Buffer.sampleTen.readerIndex_ + 4 ∧
        (Buffer.sampleTen.retrieve 4).writerIndex_ = Buffer.sampleTen.writerIndex_ ∧
        (Buffer.sampleTen.retrieve 4).buffer_ = Buffer.sampleTen.buffer_ ∧
        (Buffer.sampleTen.retrieve 4).readableBytes = Buffer.sampleTen.readableBytes - 4) ∧
      (4 = Buffer.sampleTen.readableBytes →
        (Buffer.sampleTen.retrieve 4).readerIndex_ = kCheapPrepend ∧
        (Buffer.sampleTen.retrieve 4).writerIndex_ = kCheapPrepend)) :=
  ⟨by decide, by decide, by decide,
    C6_retrieve Buffer.sampleTen 4 (by decide) (by decide)⟩

/-- C9, `retrieveAsString` is a FIFO read.  For a buffer satisfying the index
invariant whose readable content is `R`, and `n <= |R|`, `retrieveAsString(n)`
returns the first `n` bytes of `R` and leaves the remaining `|R| - n` bytes of
`R` readable, in order; and for `a + c <= |R|`, `retrieveAsString(a)` followed
by `retrieveAsString(c)` returns two strings whose concatenation is the result
of a single `retrieveAsString(a + c)`, the buffer ending in the same state. -/
theorem C9_retrieveAsString_fifo (b : Buffer) (R : List Byte) (n a c : Nat)
    (hi : b.IndexInv) (hs : b.SizeFits) (hR : b.readable = some R)
    (hn : n ≤ R.length) (hac : a + c ≤ R.length) :
    (∃ b', b.retrieveAsString n = some (R.take n, b') ∧ b'.readable = some (R.drop n)) ∧
    (∃ s1 b1 s2 b2, b.retrieveAsString a = some (s1, b1) ∧
      b1.retrieveAsString c = some (s2, b2) ∧
      b.retrieveAsString (a + c) = some (s1 ++ s2, b2)) := by
  constructor
  · exact ⟨b.retrieve n, Buffer.retrieveAsString_ok hi hs hR hn⟩
  · have h1 := Buffer.retrieveAsString_ok (n := a) hi hs hR (by omega)
    have hinv := Buffer.retrieve_ok a hi hs
    have h2 := Buffer.retrieveAsString_ok (n := c) hinv.1 hinv.2.1 h1.2
      (by rw [List.length_drop]; omega)
    have h3 := Buffer.retrieveAsString_ok (n := a + c) hi hs hR hac
    have hcap := hs.1
    have hlen : R.length = b.writerIndex_ - b.readerIndex_ := by
      have hR2 := hR
      rw [Buffer.readable_eq hi hs] at hR2
      obtain ⟨i1, i2, i3⟩ := hi
      rw [← Option.some.inj hR2, List.length_take, List.length_drop]; omega
    refine ⟨R.take a, b.retrieve a, (R.drop a).take c, (b.retrieve a).retrieve c,
      h1.1, h2.1, ?_⟩
    rw [h3.1, Buffer.retrieve_retrieve hi hs (by omega), List.take_add]

/-- C9 at a concrete input: `sampleTen`, with `n = 4`, `a = 3` and `c = 5`. -/
theorem C9_retrieveAsString_fifo_witness :
    Buffer.sampleTen.IndexInv ∧ Buffer.sampleTen.SizeFits ∧
    Buffer.sampleTen.readable = some Buffer.tenBytes ∧
    4 ≤ Buffer.tenBytes.length ∧ 3 + 5 ≤ Buffer.tenBytes.length ∧
    ((∃ b', Buffer.sampleTen.retrieveAsString 4 = some (Buffer.tenBytes.take 4, b') ∧
        b'.readable = some (Buffer.tenBytes.drop 4)) ∧
      (∃ s1 b1 s2 b2, Buffer.sampleTen.retrieveAsString 3 = some (s1, b1) ∧
        b1.retrieveAsString 5 = some (s2, b2) ∧
        Buffer.sampleTen.retrieveAsString (3 + 5) = some (s1 ++ s2, b2))) :=
  ⟨by decide, by decide, by decide, by decide, by decide,
    C9_retrieveAsString_fifo Buffer.sampleTen Buffer.tenBytes 4 3 5
      (by decide) (by decide) (by decide) (by decide) (by decide)⟩

/-! ## Behaviour of the Buffer when a length wraps -/

/-- C5, evaluated on `Buffer()` and `n = 2^64 - 1`.  The sum
`len + kCheapPrepend` wraps to 7, the growth test `1032 < 7` fails, `makeSpace`
takes the compacting branch and the buffer is returned unchanged: 1024 bytes
are writable, fewer than `n`, and a copy of `n` bytes at the write index would
leave the vector and its block. -/
theorem C5_ensureWritableBytes_wrapping_length :
    Buffer.new kInitialSize = some Buffer.default ∧
      Buffer.default.IndexInv ∧ Buffer.default.SizeFits ∧
      Buffer.default.ensureWritableBytes (2 ^ 64 - 1) = .returned Buffer.default ∧
      Buffer.default.writableBytes = 1024 ∧
      ¬ 2 ^ 64 - 1 ≤ Buffer.default.writableBytes ∧
      Buffer.default.buffer_.size < Buffer.default.beginWrite + (2 ^ 64 - 1) ∧
      Buffer.default.buffer_.data.length < Buffer.default.beginWrite + (2 ^ 64 - 1) := by
  decide

/-- C2, evaluated at two inputs.  From `Buffer(16)`, `append` of ten bytes
followed by `ensureWritableBytes(2^64 - 10)` yields a vector of size 8 with
the write index at 18; and the constructor call `Buffer(2^64 - 1)` wraps
`kCheapPrepend + initalSize` to 7 and yields a vector of size 7 with both
indices at 8.  Neither state satisfies `writerIndex <= size`. -/
theorem C2_index_invariant_broken_by_wrapping_length :
    (Buffer.new 16 = some Buffer.sixteen ∧
      ∃ b', Buffer.sixteen.run
          [Op.append Buffer.tenBytes, Op.ensureWritableBytes (2 ^ 64 - 10)] = .returned b' ∧
        b'.writerIndex_ = 18 ∧ b'.buffer_.size = 8 ∧
        ¬ b'.writerIndex_ ≤ b'.buffer_.size ∧ ¬ b'.IndexInv) ∧
      ∃ b0, Buffer.new (2 ^ 64 - 1) = some b0 ∧
        b0.writerIndex_ = 8 ∧ b0.buffer_.size = 7 ∧
        ¬ b0.writerIndex_ ≤ b0.buffer_.size ∧ ¬ b0.IndexInv :=
  ⟨⟨by decide, ⟨⟨Buffer.sampleTen.buffer_.data, 8⟩, 8, 18⟩,
      by decide, by decide, by decide, by decide, by decide⟩,
    ⟨⟨List.replicate 7 0, 7⟩, 8, 8⟩, by decide, by decide, by decide, by decide, by decide⟩

/-- C7, evaluated on `Buffer()`.  The default buffer has a vector of size 1032;
after `append` of ten bytes, `ensureWritableBytes(2^64 - 10)` resizes the
vector to `(18 + 2^64 - 10) mod 2^64 = 8` elements, fewer than before. -/
theorem C7_storage_shrinks_on_wrapping_length :
    Buffer.new kInitialSize = some Buffer.default ∧
      Buffer.default.buffer_.size = 1032 ∧
      ∃ b1 b2, Buffer.default.append Buffer.tenBytes = .returned b1 ∧
        b1.IndexInv ∧ b1.buffer_.size = 1032 ∧
        b1.ensureWritableBytes (2 ^ 64 - 10) = .returned b2 ∧
        b2.buffer_.size = 8 :=
  ⟨by decide, by decide,
    ⟨⟨List.replicate 8 0 ++ Buffer.tenBytes ++ List.replicate 1014 0, 1032⟩, 8, 18⟩,
    ⟨⟨List.replicate 8 0 ++ Buffer.tenBytes ++ List.replicate 1014 0, 8⟩, 8, 18⟩,
    by decide, by decide, by decide, by decide, by decide⟩

/-! ## Claims on the Channel and on Socket::accept -/

/-- C8, channel interest mask.  With `kNoneEvent == 0` and read and write masks
that are non-zero and share no bit, for every interest mask: `enableReading`
makes `isReading()` true and `disableReading` makes it false, both leaving
`isWriting()` unchanged; `enableWriting` makes `isWriting()` true and
`disableWriting` makes it false, both leaving `isReading()` unchanged;
`disableAll` makes `isNoneEvent()` true; and each of the five sends exactly
one more update request to the loop, made after the mask was changed. -/
theorem C8_channel_interest_mask (k : ChannelConsts) (c : Channel) (hk : k.Valid) :
    ((c.enableReading k).isReading k = true ∧
      (c.enableReading k).isWriting k = c.isWriting k) ∧
    ((c.disableReading k).isReading k = false ∧
      (c.disableReading k).isWriting k = c.isWriting k) ∧
    ((c.enableWriting k).isWriting k = true ∧
      (c.enableWriting k).isReading k = c.isReading k) ∧
    ((c.disableWriting k).isWriting k = false ∧
      (c.disableWriting k).isReading k = c.isReading k) ∧
    (c.disableAll k).isNoneEvent k = true ∧
    (c.enableReading k).loopUpdates = c.loopUpdates ++ [c.events_ ||| k.kReadEvent] ∧
    (c.disableReading k).loopUpdates =
      c.loopUpdates ++ [c.events_ &&& intNot k.kReadEvent] ∧
    (c.enableWriting k).loopUpdates = c.loopUpdates ++ [c.events_ ||| k.kWriteEvent] ∧
    (c.disableWriting k).loopUpdates =
      c.loopUpdates ++ [c.events_ &&& intNot k.kWriteEvent] ∧
    (c.disableAll k).loopUpdates = c.loopUpdates ++ [k.kNoneEvent] ∧
    (∀ op ∈ [Channel.enableReading, Channel.disableReading, Channel.enableWriting,
        Channel.disableWriting, Channel.disableAll],
      (op k c).loopUpdates = c.loopUpdates ++ [(op k c).events_]) := by
  obtain ⟨_, hr, hw, hd, hrl, hwl⟩ := hk
  have hd' : k.kWriteEvent &&& k.kReadEvent = 0 := by rw [Nat.land_comm]; exact hd
  refine ⟨⟨?_, ?_⟩, ⟨?_, ?_⟩, ⟨?_, ?_⟩, ⟨?_, ?_⟩, ?_, rfl, rfl, rfl, rfl, rfl, ?_⟩
  · simp only [Channel.isReading, Channel.enableReading, Channel.update, intToBool,
      or_and_self_mask]
    exact decide_eq_true hr
  · simp only [Channel.isWriting, Channel.enableReading, Channel.update,
      or_and_other_mask _ hd]
  · simp only [Channel.isReading, Channel.disableReading, Channel.update, intToBool,
      and_not_and_self_mask _ hrl]
    decide
  · simp only [Channel.isWriting, Channel.disableReading, Channel.update,
      and_not_and_other_mask _ hd hrl hwl]
  · simp only [Channel.isWriting, Channel.enableWriting, Channel.update, intToBool,
      or_and_self_mask]
    exact decide_eq_true hw
  · simp only [Channel.isReading, Channel.enableWriting, Channel.update,
      or_and_other_mask _ hd']
  · simp only [Channel.isWriting, Channel.disableWriting, Channel.update, intToBool,
      and_not_and_self_mask _ hwl]
    decide
  · simp only [Channel.isReading, Channel.disableWriting, Channel.update,
      and_not_and_other_mask _ hd' hwl hrl]
  · simp only [Channel.isNoneEvent, Channel.disableAll, Channel.update, decide_True]
  · intro op hop
    simp only [List.mem_cons, List.mem_singleton, List.not_mem_nil, or_false] at hop
    rcases hop with h | h | h | h | h <;> subst h <;> rfl

/-- C8 at a concrete input: the masks `kReadEvent = 3` and `kWriteEvent = 4`
on a channel with write interest only and no request sent yet. -/
theorem C8_channel_interest_mask_witness :
    ChannelConsts.sample.Valid ∧
    (((Channel.sample.enableReading ChannelConsts.sample).isReading ChannelConsts.sample
          = true ∧
        (Channel.sample.enableReading ChannelConsts.sample).isWriting ChannelConsts.sample
          = Channel.sample.isWriting ChannelConsts.sample) ∧
      ((Channel.sample.disableReading ChannelConsts.sample).isReading ChannelConsts.sample
          = false ∧
        (Channel.sample.disableReading ChannelConsts.sample).isWriting ChannelConsts.sample
          = Channel.sample.isWriting ChannelConsts.sample) ∧
      ((Channel.sample.enableWriting ChannelConsts.sample).isWriting ChannelConsts.sample
          = true ∧
        (Channel.sample.enableWriting ChannelConsts.sample).isReading ChannelConsts.sample
          = Channel.sample.isReading ChannelConsts.sample) ∧
      ((Channel.sample.disableWriting ChannelConsts.sample).isWriting ChannelConsts.sample
          = false ∧
        (Channel.sample.disableWriting ChannelConsts.sample).isReading ChannelConsts.sample
          = Channel.sample.isReading ChannelConsts.sample) ∧
      (Channel.sample.disableAll ChannelConsts.sample).isNoneEvent ChannelConsts.sample
        = true ∧
      (Channel.sample.enableReading ChannelConsts.sample).loopUpdates =
        Channel.sample.loopUpdates ++
          [Channel.sample.events_ ||| ChannelConsts.sample.kReadEvent] ∧
      (Channel.sample.disableReading ChannelConsts.sample).loopUpdates =
        Channel.sample.loopUpdates ++
          [Channel.sample.events_ &&& intNot ChannelConsts.sample.kReadEvent] ∧
      (Channel.sample.enableWriting ChannelConsts.sample).loopUpdates =
        Channel.sample.loopUpdates ++
          [Channel.sample.events_ ||| ChannelConsts.sample.kWriteEvent] ∧
      (Channel.sample.disableWriting ChannelConsts.sample).loopUpdates =
        Channel.sample.loopUpdates ++
          [Channel.sample.events_ &&& intNot ChannelConsts.sample.kWriteEvent] ∧
      (Channel.sample.disableAll ChannelConsts.sample).loopUpdates =
        Channel.sample.loopUpdates ++ [ChannelConsts.sample.kNoneEvent] ∧
      (∀ op ∈ [Channel.enableReading, Channel.disableReading, Channel.enableWriting,
          Channel.disableWriting, Channel.disableAll],
        (op ChannelConsts.sample Channel.sample).loopUpdates =
          Channel.sample.loopUpdates ++ [(op ChannelConsts.sample Channel.sample).events_])) :=
  ⟨by decide, C8_channel_interest_mask ChannelConsts.sample Channel.sample (by decide)⟩

/-- C10, `Socket::accept`.  The call returns exactly the value produced by
`accept4`, which is called with the flags `SOCK_NONBLOCK | SOCK_CLOEXEC` on a
zeroed address; `*peeraddr` receives the address written by `accept4` when
that value is `>= 0`, and is left unchanged when it is negative. -/
theorem C10_accept_result (A : Type) (os : Kernel) (setSockAddr : A → SockAddrIn → A)
    (sockfd : Int) (peeraddr : A) :
    (Socket.accept os setSockAddr sockfd peeraddr).1 =
      (os.accept4 sockfd SockAddrIn.zero sizeofSockAddrIn (SOCK_NONBLOCK ||| SOCK_CLOEXEC)).1 ∧
    (Socket.accept os setSockAddr sockfd peeraddr).2 =
      if 0 ≤ (os.accept4 sockfd SockAddrIn.zero sizeofSockAddrIn
          (SOCK_NONBLOCK ||| SOCK_CLOEXEC)).1 then
        setSockAddr peeraddr
          (os.accept4 sockfd SockAddrIn.zero sizeofSockAddrIn (SOCK_NONBLOCK ||| SOCK_CLOEXEC)).2
      else peeraddr := by
  unfold Socket.accept
  by_cases h : 0 ≤ (os.accept4 sockfd SockAddrIn.zero sizeofSockAddrIn
      (SOCK_NONBLOCK ||| SOCK_CLOEXEC)).1
  · simp [h]
  · simp [h]

end Voker
